import Mathlib

/-!
Verification of the Base32 codec in `src/base32.c` (lua-base32).

Bytes are modelled as natural numbers (`uint8_t` values, `< 256`); strings
are `List Nat` of byte values.  The C `uint64_t`/`uint32_t` accumulators
never overflow (they hold at most 44 bits), so they are modelled as `Nat`
with the same shift/or/mask operations as the C source.
-/

namespace Base32

/-- RFC 4648 Base32 decoding table (`RFC_DECODE_TABLE` in base32.c):
`2`-`7` (bytes 50-55) map to 26-31, `A`-`Z` (65-90) and `a`-`z` (97-122)
map to 0-25, everything else is `0xFF` (invalid). -/
def RFC_DECODE_TABLE : List Nat :=
  List.replicate 50 255 ++
  -- 2-7
  [26, 27, 28, 29, 30, 31] ++
  List.replicate 9 255 ++
  -- A-Z
  [0, 1, 2, 3, 4, 5, 6, 7, 8, 9, 10, 11, 12, 13, 14, 15, 16, 17, 18, 19, 20,
   21, 22, 23, 24, 25] ++
  List.replicate 6 255 ++
  -- a-z
  [0, 1, 2, 3, 4, 5, 6, 7, 8, 9, 10, 11, 12, 13, 14, 15, 16, 17, 18, 19, 20,
   21, 22, 23, 24, 25] ++
  List.replicate 133 255

/-- Crockford Base32 decoding table (`CROCKFORD_DECODE_TABLE` in base32.c):
`0`-`9` (48-57) map to 0-9; `A`-`Z` (65-90) and `a`-`z` (97-122) map as in
the source with `I`/`i` = 1, `L`/`l` = 1, `O`/`o` = 0, `U`/`u` invalid;
everything else is `0xFF` (invalid). -/
def CROCKFORD_DECODE_TABLE : List Nat :=
  List.replicate 48 255 ++
  -- 0-9
  [0, 1, 2, 3, 4, 5, 6, 7, 8, 9] ++
  List.replicate 7 255 ++
  -- A-Z (I=1, L=1, O=0, U=0xFF)
  [10, 11, 12, 13, 14, 15, 16, 17, 1, 18, 19, 1, 20, 21, 0, 22, 23, 24, 25,
   26, 255, 27, 28, 29, 30, 31] ++
  List.replicate 6 255 ++
  -- a-z (i=1, l=1, o=0, u=0xFF)
  [10, 11, 12, 13, 14, 15, 16, 17, 1, 18, 19, 1, 20, 21, 0, 22, 23, 24, 25,
   26, 255, 27, 28, 29, 30, 31] ++
  List.replicate 133 255

/-- RFC 4648 Base32 alphabet (`RFC_ALPHABET` = "ABCDEFGHIJKLMNOPQRSTUVWXYZ234567"),
as byte values. -/
def RFC_ALPHABET : List Nat :=
  "ABCDEFGHIJKLMNOPQRSTUVWXYZ234567".toList.map Char.toNat

/-- Crockford Base32 alphabet (`CROCKFORD_ALPHABET` = "0123456789ABCDEFGHJKMNPQRSTVWXYZ"),
as byte values. -/
def CROCKFORD_ALPHABET : List Nat :=
  "0123456789ABCDEFGHJKMNPQRSTVWXYZ".toList.map Char.toNat

/-- Alphabet selector: the `opts = {"rfc", "crockford"}` option of
`encode_lua`/`decode_lua`. -/
inductive Alphabet
  | rfc
  | crockford
deriving DecidableEq, Repr

/-- Decode error taxonomy of `decode_lua`: the three distinct error paths
(length check, padding checks, character scan).  `IllegalCharacter` carries
the offending byte value and its 1-based position, as formatted into the
error message by the C source. -/
inductive DecodeError
  | InvalidLength
  | InvalidPadding
  | IllegalCharacter (byte : Nat) (pos : Nat)
deriving DecidableEq, Repr

deriving instance DecidableEq for Except

/-- Helper turning a string literal into its list of byte values. -/
def byteStr (s : String) : List Nat :=
  s.toList.map Char.toNat

/-! ## Encoder (`encode_lua`) -/

/-- Bulk step of `encode_lua`: extract 8 characters (5 bits each) from a
40-bit accumulator, most significant group first. -/
def encodeChunk (tbl : List Nat) (acc : Nat) : List Nat :=
  [tbl.getD ((acc >>> 35) % 32) 0, tbl.getD ((acc >>> 30) % 32) 0,
   tbl.getD ((acc >>> 25) % 32) 0, tbl.getD ((acc >>> 20) % 32) 0,
   tbl.getD ((acc >>> 15) % 32) 0, tbl.getD ((acc >>> 10) % 32) 0,
   tbl.getD ((acc >>> 5) % 32) 0, tbl.getD (acc % 32) 0]

/-- Tail step of `encode_lua`: extract all complete 5-bit groups from the
accumulator holding `nbits` bits, then, if 1-4 bits remain, left-shift them
into a final 5-bit group (low bits zero-filled). -/
def encodeGroups (tbl : List Nat) (acc : Nat) : Nat → List Nat
  | n + 5 => tbl.getD ((acc >>> n) % 32) 0 :: encodeGroups tbl acc n
  | 0 => []
  | n => [tbl.getD ((acc <<< (5 - n)) % 32) 0]

/-- Main emission loop of `encode_lua`: process 5 input bytes at a time
(40 bits to 8 characters), then the 1-4 remaining bytes through the
tail accumulator. -/
def encodeRaw (tbl : List Nat) : List Nat → List Nat
  | b0 :: b1 :: b2 :: b3 :: b4 :: rest =>
    encodeChunk tbl
      ((b0 <<< 32) ||| (b1 <<< 24) ||| (b2 <<< 16) ||| (b3 <<< 8) ||| b4) ++
    encodeRaw tbl rest
  | rest =>
    encodeGroups tbl (rest.foldl (fun a b => (a <<< 8) ||| b) 0) (8 * rest.length)

/-- The encoder `encode_lua`: empty input yields empty output; otherwise
emit symbols through `encodeRaw` with the selected alphabet, and for the
RFC alphabet pad the output with `=` (byte 61) to a multiple of 8. -/
def encode (alpha : Alphabet) (src : List Nat) : List Nat :=
  if src = [] then []
  else
    let tbl := match alpha with
      | .rfc => RFC_ALPHABET
      | .crockford => CROCKFORD_ALPHABET
    let out := encodeRaw tbl src
    if alpha = .rfc ∧ out.length % 8 ≠ 0 then
      out ++ List.replicate (8 - out.length % 8) 61
    else
      out

/-! ## Decoder (`decode_lua`) -/

/-- Character scan loop of `decode_lua`.  `ck` is true when the Crockford
table was selected (the C source compares `tbl == CROCKFORD_DECODE_TABLE`),
in which case `-` (byte 45) is skipped.  An invalid character (table value
`> 31`) aborts with the byte and its 1-based position.  Each valid 5-bit
value is shifted into the accumulator; at 40 bits the top 5 bytes are
emitted big-endian and removed. -/
def scanLoop (tbl : List Nat) (ck : Bool) :
    List Nat → Nat → Nat → Nat → List Nat →
    Except (Nat × Nat) (Nat × Nat × List Nat)
  | [], _, acc, nbits, out => .ok (acc, nbits, out)
  | c :: rest, i, acc, nbits, out =>
    if ck ∧ c = 45 then
      scanLoop tbl ck rest (i + 1) acc nbits out
    else
      let dc := tbl.getD c 255
      if 31 < dc then
        .error (c, i + 1)
      else
        let acc2 := (acc <<< 5) ||| dc
        if 40 ≤ nbits + 5 then
          scanLoop tbl ck rest (i + 1) (acc2 >>> 40) (nbits + 5 - 40)
            (out ++ [(acc2 >>> 32) % 256, (acc2 >>> 24) % 256,
                     (acc2 >>> 16) % 256, (acc2 >>> 8) % 256, acc2 % 256])
        else
          scanLoop tbl ck rest (i + 1) acc2 (nbits + 5) out

/-- Final drain of `decode_lua`: while at least 8 bits remain, emit the top
byte; fewer than 8 leftover bits are discarded. -/
def drain (acc : Nat) : Nat → List Nat
  | n + 8 => ((acc >>> n) % 256) :: drain acc n
  | _ => []

/-- Number of trailing `=` (byte 61) characters, as counted by the backward
stripping loop of `decode_lua`. -/
def padCount (s : List Nat) : Nat :=
  (s.reverse.takeWhile (fun c => c == 61)).length

/-- Agreement relation between two scan results: same success state, or
failures over the same byte (the reported positions may differ). -/
def scanAgree : Except (Nat × Nat) (Nat × Nat × List Nat) →
    Except (Nat × Nat) (Nat × Nat × List Nat) → Prop
  | .ok a, .ok b => a = b
  | .error e, .error f => e.1 = f.1
  | _, _ => False

/-- The decoder `decode_lua`.  Empty input decodes to empty output for both
alphabets.  For the RFC alphabet: the length must be a multiple of 8
(`InvalidLength`); trailing `=` are stripped and counted, more than 6 or a
count outside {0, 1, 3, 4, 6} is `InvalidPadding`; then the stripped input
is scanned.  For Crockford the input is scanned directly with `-`
skipping.  Remaining whole bytes are drained after the scan. -/
def decode (alpha : Alphabet) (s : List Nat) : Except DecodeError (List Nat) :=
  if s = [] then .ok []
  else
    match alpha with
    | .rfc =>
      if s.length % 8 ≠ 0 then .error .InvalidLength
      else
        let npad := padCount s
        if 6 < npad then .error .InvalidPadding
        else if npad ≠ 0 ∧ npad ≠ 1 ∧ npad ≠ 3 ∧ npad ≠ 4 ∧ npad ≠ 6 then
          .error .InvalidPadding
        else
          match scanLoop RFC_DECODE_TABLE false (s.take (s.length - npad)) 0 0 0 [] with
          | .error (c, p) => .error (.IllegalCharacter c p)
          | .ok (acc, nbits, out) => .ok (out ++ drain acc nbits)
    | .crockford =>
      match scanLoop CROCKFORD_DECODE_TABLE true s 0 0 0 [] with
      | .error (c, p) => .error (.IllegalCharacter c p)
      | .ok (acc, nbits, out) => .ok (out ++ drain acc nbits)

/-! ## Arithmetic helpers -/

/-- Bitwise or of a left-shifted value with a value fitting in the shifted-out
low bits is plain addition.  This justifies reading the C accumulator
expressions `(acc << k) | v` arithmetically. -/
theorem shiftLeft_lor_eq_add (a : Nat) : ∀ k b, b < 2 ^ k → (a <<< k) ||| b = a * 2 ^ k + b := by
  intro k
  induction k with
  | zero =>
    intro b hb
    have hb0 : b = 0 := by omega
    subst hb0
    simp [Nat.shiftLeft_zero]
  | succ k ih =>
    intro b hb
    have hp : 2 ^ (k + 1) = 2 ^ k * 2 := by rw [Nat.pow_succ]
    have hx2 : a <<< (k + 1) = 2 * (a <<< k) := Nat.shiftLeft_succ a k
    have hxm : (a <<< (k + 1)) % 2 = 0 := by omega
    have hmod : ((a <<< (k + 1)) ||| b) % 2 = 1 ↔
        ((a <<< (k + 1)) % 2 = 1 ∨ b % 2 = 1) := Nat.or_mod_two_eq_one
    have hdiv : ((a <<< (k + 1)) ||| b) / 2 = (a <<< (k + 1)) / 2 ||| b / 2 :=
      Nat.or_div_two
    have hxd : (a <<< (k + 1)) / 2 = a <<< k := by omega
    rw [hxd] at hdiv
    have hih : (a <<< k) ||| (b / 2) = a * 2 ^ k + b / 2 := ih (b / 2) (by omega)
    rw [hih] at hdiv
    have hsplit := Nat.div_add_mod ((a <<< (k + 1)) ||| b) 2
    omega

/-- Specialisation of `shiftLeft_lor_eq_add` to the 5-bit accumulator step of
the decoder scan. -/
theorem lor5_eq_add (a v : Nat) (hv : v ≤ 31) : (a <<< 5) ||| v = a * 32 + v := by
  have h := shiftLeft_lor_eq_add a 5 v (by omega)
  omega

/-- The 40-bit accumulator loaded by the bulk path of `encode_lua` equals the
big-endian value of its 5 input bytes. -/
theorem bulkAcc_eq (b0 b1 b2 b3 b4 : Nat) (h1 : b1 < 256) (h2 : b2 < 256)
    (h3 : b3 < 256) (h4 : b4 < 256) :
    (b0 <<< 32) ||| (b1 <<< 24) ||| (b2 <<< 16) ||| (b3 <<< 8) ||| b4 =
      b0 * 2 ^ 32 + b1 * 2 ^ 24 + b2 * 2 ^ 16 + b3 * 2 ^ 8 + b4 := by
  have e1 : (b3 <<< 8) ||| b4 = b3 * 2 ^ 8 + b4 :=
    shiftLeft_lor_eq_add b3 8 b4 (by omega)
  have e2 : (b2 <<< 16) ||| (b3 * 2 ^ 8 + b4) = b2 * 2 ^ 16 + (b3 * 2 ^ 8 + b4) :=
    shiftLeft_lor_eq_add b2 16 _ (by omega)
  have e3 : (b1 <<< 24) ||| (b2 * 2 ^ 16 + (b3 * 2 ^ 8 + b4)) =
      b1 * 2 ^ 24 + (b2 * 2 ^ 16 + (b3 * 2 ^ 8 + b4)) :=
    shiftLeft_lor_eq_add b1 24 _ (by omega)
  have e4 : (b0 <<< 32) ||| (b1 * 2 ^ 24 + (b2 * 2 ^ 16 + (b3 * 2 ^ 8 + b4))) =
      b0 * 2 ^ 32 + (b1 * 2 ^ 24 + (b2 * 2 ^ 16 + (b3 * 2 ^ 8 + b4))) :=
    shiftLeft_lor_eq_add b0 32 _ (by omega)
  rw [Nat.or_assoc, Nat.or_assoc, Nat.or_assoc, e1, e2, e3, e4]
  omega

/-! ## Scan loop lemmas -/

/-- Scanning a block of in-range symbol values (rendered through the encode
alphabet) that does not reach the 40-bit flush threshold: the accumulator
folds the 5-bit values in and no output is emitted. -/
theorem scanLoop_noflush (tbl alpha : List Nat) (ck : Bool)
    (hinv : ∀ v, v < 32 → tbl.getD (alpha.getD v 0) 255 = v)
    (hnd : ∀ v, v < 32 → ¬(ck = true ∧ alpha.getD v 0 = 45)) :
    ∀ (vs : List Nat), (∀ v ∈ vs, v < 32) →
    ∀ (rest : List Nat) (i acc nbits : Nat) (out : List Nat),
      nbits + 5 * vs.length < 40 →
      scanLoop tbl ck (vs.map (fun v => alpha.getD v 0) ++ rest) i acc nbits out =
        scanLoop tbl ck rest (i + vs.length)
          (vs.foldl (fun a v => a * 32 + v) acc) (nbits + 5 * vs.length) out := by
  intro vs
  induction vs with
  | nil =>
    intro _ rest i acc nbits out _
    simp
  | cons v vs ih =>
    intro hvs rest i acc nbits out hlt
    have hv : v < 32 := hvs v (by simp)
    simp only [List.map_cons, List.cons_append, scanLoop]
    rw [if_neg (hnd v hv), hinv v hv]
    have h31 : ¬(31 < v) := by omega
    rw [if_neg h31]
    have hfl : ¬(40 ≤ nbits + 5) := by
      simp only [List.length_cons] at hlt
      omega
    rw [if_neg hfl, lor5_eq_add acc v (by omega)]
    simp only [List.append_eq]
    rw [ih (fun w hw => hvs w (by simp [hw])) rest (i + 1) (acc * 32 + v) (nbits + 5) out
      (by simp only [List.length_cons] at hlt ⊢; omega)]
    simp only [List.length_cons, List.foldl_cons]
    rw [show i + 1 + vs.length = i + (vs.length + 1) from by omega,
        show nbits + 5 + 5 * vs.length = nbits + 5 * (vs.length + 1) from by omega]

/-- Congruence helper for fully applied scan-loop states. -/
theorem scanLoop_congr (tbl : List Nat) (ck : Bool) (rest : List Nat)
    {i j a b n m : Nat} {out1 out2 : List Nat}
    (hij : i = j) (hab : a = b) (hnm : n = m) (ho : out1 = out2) :
    scanLoop tbl ck rest i a n out1 = scanLoop tbl ck rest j b m out2 := by
  rw [hij, hab, hnm, ho]

/-- Scanning one bulk block of `encode_lua` (8 symbols from a 40-bit
accumulator) hits the 40-bit flush and emits exactly the 5 big-endian bytes
of the accumulator, returning the scan state to empty. -/
theorem scanLoop_chunk (tbl alpha : List Nat) (ck : Bool)
    (hinv : ∀ v, v < 32 → tbl.getD (alpha.getD v 0) 255 = v)
    (hnd : ∀ v, v < 32 → ¬(ck = true ∧ alpha.getD v 0 = 45))
    (A : Nat) (hA : A < 2 ^ 40) (rest : List Nat) (i : Nat) (out : List Nat) :
    scanLoop tbl ck (encodeChunk alpha A ++ rest) i 0 0 out =
      scanLoop tbl ck rest (i + 8) 0 0
        (out ++ [A / 2 ^ 32 % 256, A / 2 ^ 24 % 256, A / 2 ^ 16 % 256,
                 A / 2 ^ 8 % 256, A % 256]) := by
  have hmap : encodeChunk alpha A =
      ([(A >>> 35) % 32, (A >>> 30) % 32, (A >>> 25) % 32, (A >>> 20) % 32,
        (A >>> 15) % 32, (A >>> 10) % 32,
        (A >>> 5) % 32].map (fun v => alpha.getD v 0)) ++ [alpha.getD (A % 32) 0] := by
    simp [encodeChunk]
  rw [hmap, List.append_assoc]
  rw [scanLoop_noflush tbl alpha ck hinv hnd _
    (by intro v hv; simp at hv; rcases hv with h | h | h | h | h | h | h <;> omega)
    _ i 0 0 out (by norm_num)]
  simp only [List.cons_append, List.nil_append, List.foldl_cons, List.foldl_nil,
    List.length_cons, List.length_nil, Nat.shiftRight_eq_div_pow]
  rw [show (0 + 5 * (0 + 1 + 1 + 1 + 1 + 1 + 1 + 1)) = 35 from rfl,
      show i + (0 + 1 + 1 + 1 + 1 + 1 + 1 + 1) = i + 7 from rfl]
  simp only [scanLoop]
  have hm : A % 32 < 32 := by omega
  rw [if_neg (hnd _ hm), hinv _ hm]
  rw [if_neg (show ¬(31 < A % 32) from by omega)]
  rw [if_pos (show 40 ≤ 35 + 5 from by norm_num)]
  rw [lor5_eq_add _ _ (show A % 32 ≤ 31 from by omega)]
  simp only [Nat.shiftRight_eq_div_pow]
  rw [show (((((((0 * 32 + A / 2 ^ 35 % 32) * 32 + A / 2 ^ 30 % 32) * 32 +
      A / 2 ^ 25 % 32) * 32 + A / 2 ^ 20 % 32) * 32 + A / 2 ^ 15 % 32) * 32 +
      A / 2 ^ 10 % 32) * 32 + A / 2 ^ 5 % 32) * 32 + A % 32 = A from by omega]
  apply scanLoop_congr
  · omega
  · omega
  · rfl
  · rfl


/-- Unfolding of `drain` at 10 held bits: one byte, 2 bits discarded. -/
theorem drain10 (a : Nat) : drain a 10 = [(a >>> 2) % 256] := by simp [drain]

/-- Unfolding of `drain` at 20 held bits: two bytes, 4 bits discarded. -/
theorem drain20 (a : Nat) : drain a 20 = [(a >>> 12) % 256, (a >>> 4) % 256] := by simp [drain]

/-- Unfolding of `drain` at 25 held bits: three bytes, 1 bit discarded. -/
theorem drain25 (a : Nat) : drain a 25 = [(a >>> 17) % 256, (a >>> 9) % 256, (a >>> 1) % 256] := by
  simp [drain]

/-- Unfolding of `drain` at 35 held bits: four bytes, 3 bits discarded. -/
theorem drain35 (a : Nat) :
    drain a 35 = [(a >>> 27) % 256, (a >>> 19) % 256, (a >>> 11) % 256, (a >>> 3) % 256] := by
  simp [drain]

/-- Scanning the encoded form of a 1-byte tail: the accumulator ends holding
the 8 input bits left-shifted into the emitted symbol positions. -/
theorem scanTail1 (tbl alpha : List Nat) (ck : Bool)
    (hinv : ∀ v, v < 32 → tbl.getD (alpha.getD v 0) 255 = v)
    (hnd : ∀ v, v < 32 → ¬(ck = true ∧ alpha.getD v 0 = 45))
    (b0 : Nat) (h0 : b0 < 256) (i : Nat) (out : List Nat) :
    scanLoop tbl ck (encodeRaw alpha [b0]) i 0 0 out =
      .ok ((b0) * 4, 10, out) := by
  have hrw : encodeRaw alpha [b0] =
      ([(b0 >>> 3) % 32, (b0 <<< 2) % 32].map (fun v => alpha.getD v 0)) ++ [] := by
    simp [encodeRaw, encodeGroups]
  rw [hrw, scanLoop_noflush tbl alpha ck hinv hnd _
    (by intro v hv; simp at hv; rcases hv with h | h <;> omega)
    [] i 0 0 out (by simp)]
  simp only [scanLoop, List.foldl_cons, List.foldl_nil, List.length_cons,
    List.length_nil, Except.ok.injEq, Prod.mk.injEq, and_true]
  simp only [Nat.shiftRight_eq_div_pow, Nat.shiftLeft_eq]
  have hT : b0 < 256 := by omega
  generalize b0 = T at *
  omega

/-- Draining the post-scan accumulator of a 1-byte tail recovers the
original bytes; the leftover low bits are discarded. -/
theorem drainTail1 (b0 : Nat) (h0 : b0 < 256) :
    drain ((b0) * 4) 10 = [b0] := by
  rw [drain10]
  rw [show ((b0) * 4) >>> 2 % 256 = b0 from by
    simp only [Nat.shiftRight_eq_div_pow]
    omega]

/-- Scanning the encoded form of a 2-byte tail: the accumulator ends holding
the 16 input bits left-shifted into the emitted symbol positions. -/
theorem scanTail2 (tbl alpha : List Nat) (ck : Bool)
    (hinv : ∀ v, v < 32 → tbl.getD (alpha.getD v 0) 255 = v)
    (hnd : ∀ v, v < 32 → ¬(ck = true ∧ alpha.getD v 0 = 45))
    (b0 b1 : Nat) (h0 : b0 < 256) (h1 : b1 < 256) (i : Nat) (out : List Nat) :
    scanLoop tbl ck (encodeRaw alpha [b0, b1]) i 0 0 out =
      .ok ((b0 * 256 + b1) * 16, 20, out) := by
  have e1 : b0 <<< 8 ||| b1 = b0 * 256 + b1 := by
    have := shiftLeft_lor_eq_add b0 8 b1 (by omega)
    omega
  have hrw : encodeRaw alpha [b0, b1] =
      ([((b0 * 256 + b1) >>> 11) % 32, ((b0 * 256 + b1) >>> 6) % 32, ((b0 * 256 + b1) >>> 1) % 32, ((b0 * 256 + b1) <<< 4) % 32].map (fun v => alpha.getD v 0)) ++ [] := by
    simp [encodeRaw, encodeGroups, e1]
  rw [hrw, scanLoop_noflush tbl alpha ck hinv hnd _
    (by intro v hv; simp at hv; rcases hv with h | h | h | h <;> omega)
    [] i 0 0 out (by simp)]
  simp only [scanLoop, List.foldl_cons, List.foldl_nil, List.length_cons,
    List.length_nil, Except.ok.injEq, Prod.mk.injEq, and_true]
  simp only [Nat.shiftRight_eq_div_pow, Nat.shiftLeft_eq]
  have hT : b0 * 256 + b1 < 65536 := by omega
  generalize b0 * 256 + b1 = T at *
  omega

/-- Draining the post-scan accumulator of a 2-byte tail recovers the
original bytes; the leftover low bits are discarded. -/
theorem drainTail2 (b0 b1 : Nat) (h0 : b0 < 256) (h1 : b1 < 256) :
    drain ((b0 * 256 + b1) * 16) 20 = [b0, b1] := by
  rw [drain20]
  rw [show ((b0 * 256 + b1) * 16) >>> 12 % 256 = b0 from by
    simp only [Nat.shiftRight_eq_div_pow]
    omega]
  rw [show ((b0 * 256 + b1) * 16) >>> 4 % 256 = b1 from by
    simp only [Nat.shiftRight_eq_div_pow]
    omega]

/-- Scanning the encoded form of a 3-byte tail: the accumulator ends holding
the 24 input bits left-shifted into the emitted symbol positions. -/
theorem scanTail3 (tbl alpha : List Nat) (ck : Bool)
    (hinv : ∀ v, v < 32 → tbl.getD (alpha.getD v 0) 255 = v)
    (hnd : ∀ v, v < 32 → ¬(ck = true ∧ alpha.getD v 0 = 45))
    (b0 b1 b2 : Nat) (h0 : b0 < 256) (h1 : b1 < 256) (h2 : b2 < 256) (i : Nat) (out : List Nat) :
    scanLoop tbl ck (encodeRaw alpha [b0, b1, b2]) i 0 0 out =
      .ok ((b0 * 65536 + b1 * 256 + b2) * 2, 25, out) := by
  have e1 : b0 <<< 8 ||| b1 = b0 * 256 + b1 := by
    have := shiftLeft_lor_eq_add b0 8 b1 (by omega)
    omega
  have e2 : (b0 * 256 + b1) <<< 8 ||| b2 = b0 * 65536 + b1 * 256 + b2 := by
    have := shiftLeft_lor_eq_add (b0 * 256 + b1) 8 b2 (by omega)
    omega
  have hrw : encodeRaw alpha [b0, b1, b2] =
      ([((b0 * 65536 + b1 * 256 + b2) >>> 19) % 32, ((b0 * 65536 + b1 * 256 + b2) >>> 14) % 32, ((b0 * 65536 + b1 * 256 + b2) >>> 9) % 32, ((b0 * 65536 + b1 * 256 + b2) >>> 4) % 32, ((b0 * 65536 + b1 * 256 + b2) <<< 1) % 32].map (fun v => alpha.getD v 0)) ++ [] := by
    simp [encodeRaw, encodeGroups, e1, e2]
  rw [hrw, scanLoop_noflush tbl alpha ck hinv hnd _
    (by intro v hv; simp at hv; rcases hv with h | h | h | h | h <;> omega)
    [] i 0 0 out (by simp)]
  simp only [scanLoop, List.foldl_cons, List.foldl_nil, List.length_cons,
    List.length_nil, Except.ok.injEq, Prod.mk.injEq, and_true]
  simp only [Nat.shiftRight_eq_div_pow, Nat.shiftLeft_eq]
  have hT : b0 * 65536 + b1 * 256 + b2 < 16777216 := by omega
  generalize b0 * 65536 + b1 * 256 + b2 = T at *
  omega

/-- Draining the post-scan accumulator of a 3-byte tail recovers the
original bytes; the leftover low bits are discarded. -/
theorem drainTail3 (b0 b1 b2 : Nat) (h0 : b0 < 256) (h1 : b1 < 256) (h2 : b2 < 256) :
    drain ((b0 * 65536 + b1 * 256 + b2) * 2) 25 = [b0, b1, b2] := by
  rw [drain25]
  rw [show ((b0 * 65536 + b1 * 256 + b2) * 2) >>> 17 % 256 = b0 from by
    simp only [Nat.shiftRight_eq_div_pow]
    omega]
  rw [show ((b0 * 65536 + b1 * 256 + b2) * 2) >>> 9 % 256 = b1 from by
    simp only [Nat.shiftRight_eq_div_pow]
    omega]
  rw [show ((b0 * 65536 + b1 * 256 + b2) * 2) >>> 1 % 256 = b2 from by
    simp only [Nat.shiftRight_eq_div_pow]
    omega]

/-- Scanning the encoded form of a 4-byte tail: the accumulator ends holding
the 32 input bits left-shifted into the emitted symbol positions. -/
theorem scanTail4 (tbl alpha : List Nat) (ck : Bool)
    (hinv : ∀ v, v < 32 → tbl.getD (alpha.getD v 0) 255 = v)
    (hnd : ∀ v, v < 32 → ¬(ck = true ∧ alpha.getD v 0 = 45))
    (b0 b1 b2 b3 : Nat) (h0 : b0 < 256) (h1 : b1 < 256) (h2 : b2 < 256) (h3 : b3 < 256) (i : Nat) (out : List Nat) :
    scanLoop tbl ck (encodeRaw alpha [b0, b1, b2, b3]) i 0 0 out =
      .ok ((b0 * 16777216 + b1 * 65536 + b2 * 256 + b3) * 8, 35, out) := by
  have e1 : b0 <<< 8 ||| b1 = b0 * 256 + b1 := by
    have := shiftLeft_lor_eq_add b0 8 b1 (by omega)
    omega
  have e2 : (b0 * 256 + b1) <<< 8 ||| b2 = b0 * 65536 + b1 * 256 + b2 := by
    have := shiftLeft_lor_eq_add (b0 * 256 + b1) 8 b2 (by omega)
    omega
  have e3 : (b0 * 65536 + b1 * 256 + b2) <<< 8 ||| b3 = b0 * 16777216 + b1 * 65536 + b2 * 256 + b3 := by
    have := shiftLeft_lor_eq_add (b0 * 65536 + b1 * 256 + b2) 8 b3 (by omega)
    omega
  have hrw : encodeRaw alpha [b0, b1, b2, b3] =
      ([((b0 * 16777216 + b1 * 65536 + b2 * 256 + b3) >>> 27) % 32, ((b0 * 16777216 + b1 * 65536 + b2 * 256 + b3) >>> 22) % 32, ((b0 * 16777216 + b1 * 65536 + b2 * 256 + b3) >>> 17) % 32, ((b0 * 16777216 + b1 * 65536 + b2 * 256 + b3) >>> 12) % 32, ((b0 * 16777216 + b1 * 65536 + b2 * 256 + b3) >>> 7) % 32, ((b0 * 16777216 + b1 * 65536 + b2 * 256 + b3) >>> 2) % 32, ((b0 * 16777216 + b1 * 65536 + b2 * 256 + b3) <<< 3) % 32].map (fun v => alpha.getD v 0)) ++ [] := by
    simp [encodeRaw, encodeGroups, e1, e2, e3]
  rw [hrw, scanLoop_noflush tbl alpha ck hinv hnd _
    (by intro v hv; simp at hv; rcases hv with h | h | h | h | h | h | h <;> omega)
    [] i 0 0 out (by simp)]
  simp only [scanLoop, List.foldl_cons, List.foldl_nil, List.length_cons,
    List.length_nil, Except.ok.injEq, Prod.mk.injEq, and_true]
  simp only [Nat.shiftRight_eq_div_pow, Nat.shiftLeft_eq]
  have hT : b0 * 16777216 + b1 * 65536 + b2 * 256 + b3 < 4294967296 := by omega
  generalize b0 * 16777216 + b1 * 65536 + b2 * 256 + b3 = T at *
  omega

/-- Draining the post-scan accumulator of a 4-byte tail recovers the
original bytes; the leftover low bits are discarded. -/
theorem drainTail4 (b0 b1 b2 b3 : Nat) (h0 : b0 < 256) (h1 : b1 < 256) (h2 : b2 < 256) (h3 : b3 < 256) :
    drain ((b0 * 16777216 + b1 * 65536 + b2 * 256 + b3) * 8) 35 = [b0, b1, b2, b3] := by
  rw [drain35]
  rw [show ((b0 * 16777216 + b1 * 65536 + b2 * 256 + b3) * 8) >>> 27 % 256 = b0 from by
    simp only [Nat.shiftRight_eq_div_pow]
    omega]
  rw [show ((b0 * 16777216 + b1 * 65536 + b2 * 256 + b3) * 8) >>> 19 % 256 = b1 from by
    simp only [Nat.shiftRight_eq_div_pow]
    omega]
  rw [show ((b0 * 16777216 + b1 * 65536 + b2 * 256 + b3) * 8) >>> 11 % 256 = b2 from by
    simp only [Nat.shiftRight_eq_div_pow]
    omega]
  rw [show ((b0 * 16777216 + b1 * 65536 + b2 * 256 + b3) * 8) >>> 3 % 256 = b3 from by
    simp only [Nat.shiftRight_eq_div_pow]
    omega]

theorem scanLoop_encodeRaw (tbl alpha : List Nat) (ck : Bool)
    (hinv : ∀ v, v < 32 → tbl.getD (alpha.getD v 0) 255 = v)
    (hnd : ∀ v, v < 32 → ¬(ck = true ∧ alpha.getD v 0 = 45)) :
    ∀ (L : Nat) (bs : List Nat), bs.length ≤ L → (∀ b ∈ bs, b < 256) →
    ∀ (i : Nat) (out : List Nat),
    ∃ a n m, scanLoop tbl ck (encodeRaw alpha bs) i 0 0 out = .ok (a, n, out ++ m)
      ∧ m ++ drain a n = bs := by
  intro L
  induction L with
  | zero =>
    intro bs hL _ i out
    have hnil : bs = [] := List.length_eq_zero.mp (by omega)
    subst hnil
    exact ⟨0, 0, [], by simp [encodeRaw, encodeGroups, scanLoop], by simp [drain]⟩
  | succ L ih =>
    intro bs hL hb i out
    rcases bs with _ | ⟨b0, _ | ⟨b1, _ | ⟨b2, _ | ⟨b3, _ | ⟨b4, rest⟩⟩⟩⟩⟩
    · exact ⟨0, 0, [], by simp [encodeRaw, encodeGroups, scanLoop], by simp [drain]⟩
    · have h0 : b0 < 256 := hb b0 (by simp)
      exact ⟨b0 * 4, 10, [],
        by simpa using scanTail1 tbl alpha ck hinv hnd b0 h0 i out,
        by simpa using drainTail1 b0 h0⟩
    · have h0 : b0 < 256 := hb b0 (by simp)
      have h1 : b1 < 256 := hb b1 (by simp)
      exact ⟨(b0 * 256 + b1) * 16, 20, [],
        by simpa using scanTail2 tbl alpha ck hinv hnd b0 b1 h0 h1 i out,
        by simpa using drainTail2 b0 b1 h0 h1⟩
    · have h0 : b0 < 256 := hb b0 (by simp)
      have h1 : b1 < 256 := hb b1 (by simp)
      have h2 : b2 < 256 := hb b2 (by simp)
      exact ⟨(b0 * 65536 + b1 * 256 + b2) * 2, 25, [],
        by simpa using scanTail3 tbl alpha ck hinv hnd b0 b1 b2 h0 h1 h2 i out,
        by simpa using drainTail3 b0 b1 b2 h0 h1 h2⟩
    · have h0 : b0 < 256 := hb b0 (by simp)
      have h1 : b1 < 256 := hb b1 (by simp)
      have h2 : b2 < 256 := hb b2 (by simp)
      have h3 : b3 < 256 := hb b3 (by simp)
      exact ⟨(b0 * 16777216 + b1 * 65536 + b2 * 256 + b3) * 8, 35, [],
        by simpa using scanTail4 tbl alpha ck hinv hnd b0 b1 b2 b3 h0 h1 h2 h3 i out,
        by simpa using drainTail4 b0 b1 b2 b3 h0 h1 h2 h3⟩
    · -- five or more bytes: bulk chunk
      have h0 : b0 < 256 := hb b0 (by simp)
      have h1 : b1 < 256 := hb b1 (by simp)
      have h2 : b2 < 256 := hb b2 (by simp)
      have h3 : b3 < 256 := hb b3 (by simp)
      have h4 : b4 < 256 := hb b4 (by simp)
      have hbulk : encodeRaw alpha (b0 :: b1 :: b2 :: b3 :: b4 :: rest) =
          encodeChunk alpha
            (b0 * 2 ^ 32 + b1 * 2 ^ 24 + b2 * 2 ^ 16 + b3 * 2 ^ 8 + b4) ++
          encodeRaw alpha rest := by
        simp only [encodeRaw]
        rw [bulkAcc_eq b0 b1 b2 b3 b4 h1 h2 h3 h4]
      have hA : b0 * 2 ^ 32 + b1 * 2 ^ 24 + b2 * 2 ^ 16 + b3 * 2 ^ 8 + b4 < 2 ^ 40 := by
        omega
      obtain ⟨a, n, m, hscan, hdr⟩ := ih rest
        (by simp only [List.length_cons] at hL; omega)
        (fun b hbm => hb b (by simp [hbm]))
        (i + 8) (out ++ [b0, b1, b2, b3, b4])
      refine ⟨a, n, [b0, b1, b2, b3, b4] ++ m, ?_, ?_⟩
      · rw [hbulk, scanLoop_chunk tbl alpha ck hinv hnd _ hA (encodeRaw alpha rest) i out]
        rw [show (b0 * 2 ^ 32 + b1 * 2 ^ 24 + b2 * 2 ^ 16 + b3 * 2 ^ 8 + b4) / 2 ^ 32 % 256 = b0 from by omega,
            show (b0 * 2 ^ 32 + b1 * 2 ^ 24 + b2 * 2 ^ 16 + b3 * 2 ^ 8 + b4) / 2 ^ 24 % 256 = b1 from by omega,
            show (b0 * 2 ^ 32 + b1 * 2 ^ 24 + b2 * 2 ^ 16 + b3 * 2 ^ 8 + b4) / 2 ^ 16 % 256 = b2 from by omega,
            show (b0 * 2 ^ 32 + b1 * 2 ^ 24 + b2 * 2 ^ 16 + b3 * 2 ^ 8 + b4) / 2 ^ 8 % 256 = b3 from by omega,
            show (b0 * 2 ^ 32 + b1 * 2 ^ 24 + b2 * 2 ^ 16 + b3 * 2 ^ 8 + b4) % 256 = b4 from by omega]
        rw [hscan, List.append_assoc]
      · simp only [List.append_assoc, List.cons_append, List.nil_append, hdr]

/-! ## Output length and output character set of the encoder -/

/-- Length of the tail-group emission: one symbol per full 5-bit group plus
one for 1-4 leftover bits, i.e. ceiling of `nbits / 5`. -/
theorem encodeGroups_length (tbl : List Nat) (acc : Nat) :
    ∀ n, (encodeGroups tbl acc n).length = (n + 4) / 5 := by
  intro n
  induction n using Nat.strong_induction_on with
  | _ n ih =>
    rcases n with _ | _ | _ | _ | _ | n
    · rfl
    · rfl
    · rfl
    · rfl
    · rfl
    · show (encodeGroups tbl acc (n + 5)).length = (n + 5 + 4) / 5
      simp only [encodeGroups, List.length_cons]
      rw [ih n (by omega)]
      omega

/-- The raw (unpadded) encoder output holds exactly
`ceil(8 * input_len / 5)` symbols. -/
theorem encodeRaw_length (tbl : List Nat) :
    ∀ (L : Nat) (bs : List Nat), bs.length ≤ L →
      (encodeRaw tbl bs).length = (8 * bs.length + 4) / 5 := by
  intro L
  induction L with
  | zero =>
    intro bs hL
    have hnil : bs = [] := List.length_eq_zero.mp (by omega)
    subst hnil
    rfl
  | succ L ih =>
    intro bs hL
    rcases bs with _ | ⟨b0, _ | ⟨b1, _ | ⟨b2, _ | ⟨b3, _ | ⟨b4, rest⟩⟩⟩⟩⟩
    · rfl
    · simp [encodeRaw, encodeGroups]
    · simp [encodeRaw, encodeGroups]
    · simp [encodeRaw, encodeGroups]
    · simp [encodeRaw, encodeGroups]
    · simp only [encodeRaw, List.length_append, List.length_cons]
      rw [ih rest (by simp only [List.length_cons] at hL; omega)]
      simp [encodeChunk]
      omega

/-- Every character emitted by the raw encoder is an alphabet entry indexed
by a 5-bit value. -/
theorem encodeGroups_mem (tbl : List Nat) (acc : Nat) :
    ∀ n c, c ∈ encodeGroups tbl acc n → ∃ v, v < 32 ∧ c = tbl.getD v 0 := by
  intro n
  induction n using Nat.strong_induction_on with
  | _ n ih =>
    rcases n with _ | _ | _ | _ | _ | n
    · intro c hc
      simp only [encodeGroups, List.not_mem_nil] at hc
    · intro c hc
      simp only [encodeGroups, List.mem_singleton] at hc
      exact ⟨(acc <<< (5 - 1)) % 32, by omega, hc⟩
    · intro c hc
      simp only [encodeGroups, List.mem_singleton] at hc
      exact ⟨(acc <<< (5 - 2)) % 32, by omega, hc⟩
    · intro c hc
      simp only [encodeGroups, List.mem_singleton] at hc
      exact ⟨(acc <<< (5 - 3)) % 32, by omega, hc⟩
    · intro c hc
      simp only [encodeGroups, List.mem_singleton] at hc
      exact ⟨(acc <<< (5 - 4)) % 32, by omega, hc⟩
    · intro c hc
      show ∃ v, v < 32 ∧ c = tbl.getD v 0
      have hc2 : c ∈ encodeGroups tbl acc (n + 5) := hc
      simp only [encodeGroups, List.mem_cons] at hc2
      rcases hc2 with h | h
      · exact ⟨(acc >>> n) % 32, by omega, h⟩
      · exact ih n (by omega) c h

/-- Every character of the raw encoder output comes from the alphabet table
at a 5-bit index. -/
theorem encodeRaw_mem (tbl : List Nat) :
    ∀ (L : Nat) (bs : List Nat), bs.length ≤ L →
    ∀ c, c ∈ encodeRaw tbl bs → ∃ v, v < 32 ∧ c = tbl.getD v 0 := by
  intro L
  induction L with
  | zero =>
    intro bs hL c hc
    have hnil : bs = [] := List.length_eq_zero.mp (by omega)
    subst hnil
    simp [encodeRaw, encodeGroups] at hc
  | succ L ih =>
    intro bs hL c hc
    rcases bs with _ | ⟨b0, _ | ⟨b1, _ | ⟨b2, _ | ⟨b3, _ | ⟨b4, rest⟩⟩⟩⟩⟩
    · simp [encodeRaw, encodeGroups] at hc
    · exact encodeGroups_mem tbl _ _ c hc
    · exact encodeGroups_mem tbl _ _ c hc
    · exact encodeGroups_mem tbl _ _ c hc
    · exact encodeGroups_mem tbl _ _ c hc
    · simp only [encodeRaw, List.mem_append] at hc
      rcases hc with h | h
      · simp only [encodeChunk, List.mem_cons, List.not_mem_nil, or_false] at h
        rcases h with h | h | h | h | h | h | h | h
        · exact ⟨_, Nat.mod_lt _ (by norm_num), h⟩
        · exact ⟨_, Nat.mod_lt _ (by norm_num), h⟩
        · exact ⟨_, Nat.mod_lt _ (by norm_num), h⟩
        · exact ⟨_, Nat.mod_lt _ (by norm_num), h⟩
        · exact ⟨_, Nat.mod_lt _ (by norm_num), h⟩
        · exact ⟨_, Nat.mod_lt _ (by norm_num), h⟩
        · exact ⟨_, Nat.mod_lt _ (by norm_num), h⟩
        · exact ⟨_, Nat.mod_lt _ (by norm_num), h⟩
      · exact ih rest (by simp only [List.length_cons] at hL; omega) c h

/-! ## Alphabet/table facts (finite checks) -/

/-- The RFC decode table inverts the RFC alphabet on all 32 symbol values. -/
theorem rfc_table_inv :
    ∀ v, v < 32 → RFC_DECODE_TABLE.getD (RFC_ALPHABET.getD v 0) 255 = v := by
  decide

/-- The Crockford decode table inverts the Crockford alphabet on all 32
symbol values. -/
theorem ck_table_inv :
    ∀ v, v < 32 →
      CROCKFORD_DECODE_TABLE.getD (CROCKFORD_ALPHABET.getD v 0) 255 = v := by
  decide

/-- With the RFC table selected, the dash-skip branch is never taken. -/
theorem rfc_nodash :
    ∀ v, v < 32 → ¬((false : Bool) = true ∧ RFC_ALPHABET.getD v 0 = 45) := by
  decide

/-- The Crockford alphabet contains no dash, so the dash-skip branch never
fires on encoder output. -/
theorem ck_nodash :
    ∀ v, v < 32 → ¬((true : Bool) = true ∧ CROCKFORD_ALPHABET.getD v 0 = 45) := by
  decide

/-- No RFC alphabet symbol is the pad character `=` (byte 61). -/
theorem rfc_alpha_ne61 : ∀ v, v < 32 → RFC_ALPHABET.getD v 0 ≠ 61 := by
  decide

/-- No Crockford alphabet symbol is `=` (byte 61) or `-` (byte 45). -/
theorem ck_alpha_ne61_45 :
    ∀ v, v < 32 → CROCKFORD_ALPHABET.getD v 0 ≠ 61 ∧
      CROCKFORD_ALPHABET.getD v 0 ≠ 45 := by
  decide

/-! ## Padding arithmetic -/

/-- A list with no `=` has an empty `=`-prefix under `takeWhile`. -/
theorem takeWhile61_nil {l : List Nat} (hl : ∀ c ∈ l, c ≠ 61) :
    l.takeWhile (fun c => c == 61) = [] := by
  cases l with
  | nil => rfl
  | cons h t =>
    have hh : h ≠ 61 := hl h (by simp)
    simp [List.takeWhile_cons, hh]

/-- Appending `p` pad characters to a pad-free body yields trailing pad
count exactly `p`. -/
theorem padCount_append_replicate (raw : List Nat) (p : Nat)
    (hraw : ∀ c ∈ raw, c ≠ 61) :
    padCount (raw ++ List.replicate p 61) = p := by
  unfold padCount
  rw [List.reverse_append, List.reverse_replicate,
      List.takeWhile_append_of_pos (by intro a ha; simp at ha; simp [ha.2]),
      takeWhile61_nil (fun c hc => hraw c (List.mem_reverse.mp hc))]
  simp


theorem decode_encode_crockford (bs : List Nat) (hb : ∀ b ∈ bs, b < 256) :
    decode .crockford (encode .crockford bs) = .ok bs := by
  by_cases hbs : bs = []
  · subst hbs; rfl
  · have hek : encode .crockford bs = encodeRaw CROCKFORD_ALPHABET bs := by
      unfold encode
      rw [if_neg hbs]
      simp
    have hlp : 0 < (encodeRaw CROCKFORD_ALPHABET bs).length := by
      rw [encodeRaw_length _ bs.length bs (Nat.le_refl _)]
      have h1 : 0 < bs.length := List.length_pos.mpr hbs
      omega
    have hne : encodeRaw CROCKFORD_ALPHABET bs ≠ [] := by
      intro h
      rw [h] at hlp
      simp at hlp
    obtain ⟨a, n, m, hscan, hdr⟩ :=
      scanLoop_encodeRaw CROCKFORD_DECODE_TABLE CROCKFORD_ALPHABET true
        ck_table_inv ck_nodash bs.length bs (Nat.le_refl _) hb 0 []
    rw [hek]
    unfold decode
    rw [if_neg hne]
    rw [hscan]
    simp [hdr]

theorem decode_encode_rfc (bs : List Nat) (hb : ∀ b ∈ bs, b < 256) :
    decode .rfc (encode .rfc bs) = .ok bs := by
  by_cases hbs : bs = []
  · subst hbs; rfl
  · have hk := encodeRaw_length RFC_ALPHABET bs.length bs (Nat.le_refl _)
    have hlbs : 1 ≤ bs.length := List.length_pos.mpr hbs
    have hmod : (encodeRaw RFC_ALPHABET bs).length % 8 = 0 ∨
        (encodeRaw RFC_ALPHABET bs).length % 8 = 2 ∨
        (encodeRaw RFC_ALPHABET bs).length % 8 = 4 ∨
        (encodeRaw RFC_ALPHABET bs).length % 8 = 5 ∨
        (encodeRaw RFC_ALPHABET bs).length % 8 = 7 := by
      rw [hk]; omega
    have hne61 : ∀ c ∈ encodeRaw RFC_ALPHABET bs, c ≠ 61 := by
      intro c hc
      obtain ⟨v, hv, hcv⟩ := encodeRaw_mem RFC_ALPHABET bs.length bs (Nat.le_refl _) c hc
      rw [hcv]
      exact rfc_alpha_ne61 v hv
    -- the encoder output is the raw symbols plus (8 - k % 8) % 8 pads
    have hek : encode .rfc bs = encodeRaw RFC_ALPHABET bs ++
        List.replicate ((8 - (encodeRaw RFC_ALPHABET bs).length % 8) % 8) 61 := by
      unfold encode
      rw [if_neg hbs]
      by_cases h8 : (encodeRaw RFC_ALPHABET bs).length % 8 = 0
      · simp [h8]
      · simp only [h8]
        simp [h8, Nat.mod_eq_of_lt (show 8 - (encodeRaw RFC_ALPHABET bs).length % 8 < 8 from by omega)]
    have hpadc : padCount (encode .rfc bs) =
        (8 - (encodeRaw RFC_ALPHABET bs).length % 8) % 8 := by
      rw [hek]
      exact padCount_append_replicate _ _ hne61
    have hlen : (encode .rfc bs).length = (encodeRaw RFC_ALPHABET bs).length +
        (8 - (encodeRaw RFC_ALPHABET bs).length % 8) % 8 := by
      rw [hek]
      simp
    have hlp : 0 < (encodeRaw RFC_ALPHABET bs).length := by
      rw [hk]; omega
    have hnee : encode .rfc bs ≠ [] := by
      intro h
      have h0 : (encode .rfc bs).length = 0 := by rw [h]; rfl
      rw [hlen] at h0
      omega
    have hstrip : (encode .rfc bs).take ((encode .rfc bs).length -
        (8 - (encodeRaw RFC_ALPHABET bs).length % 8) % 8) =
        encodeRaw RFC_ALPHABET bs := by
      rw [hlen, hek, show (encodeRaw RFC_ALPHABET bs).length +
        (8 - (encodeRaw RFC_ALPHABET bs).length % 8) % 8 -
        (8 - (encodeRaw RFC_ALPHABET bs).length % 8) % 8 =
        (encodeRaw RFC_ALPHABET bs).length from by omega]
      exact List.take_left _ _
    obtain ⟨a, n, m, hscan, hdr⟩ :=
      scanLoop_encodeRaw RFC_DECODE_TABLE RFC_ALPHABET false
        rfc_table_inv rfc_nodash bs.length bs (Nat.le_refl _) hb 0 []
    unfold decode
    rw [if_neg hnee]
    rw [if_neg (show ¬((encode .rfc bs).length % 8 ≠ 0) from by
      rw [hlen]; omega)]
    rw [hpadc]
    rw [if_neg (show ¬(6 < (8 - (encodeRaw RFC_ALPHABET bs).length % 8) % 8) from by omega)]
    rw [if_neg (show ¬((8 - (encodeRaw RFC_ALPHABET bs).length % 8) % 8 ≠ 0 ∧
      (8 - (encodeRaw RFC_ALPHABET bs).length % 8) % 8 ≠ 1 ∧
      (8 - (encodeRaw RFC_ALPHABET bs).length % 8) % 8 ≠ 3 ∧
      (8 - (encodeRaw RFC_ALPHABET bs).length % 8) % 8 ≠ 4 ∧
      (8 - (encodeRaw RFC_ALPHABET bs).length % 8) % 8 ≠ 6) from by
      omega)]
    rw [hstrip, hscan]
    simp [hdr]

/-! ## Claim theorems -/

/-- Claim C1: for every byte sequence and both alphabets, decoding the
encoding with the same alphabet succeeds and returns exactly the input
bytes. -/
theorem C1_roundtrip (a : Alphabet) (bs : List Nat) (hb : ∀ b ∈ bs, b < 256) :
    decode a (encode a bs) = .ok bs := by
  cases a
  · exact decode_encode_rfc bs hb
  · exact decode_encode_crockford bs hb

/-- Witness for C1: the round-trip evaluated at the concrete inputs "foo"
(RFC) and "foobar" (Crockford). -/
theorem C1_roundtrip_witness :
    decode .rfc (encode .rfc [102, 111, 111]) = .ok [102, 111, 111] ∧
    decode .crockford (encode .crockford [102, 111, 111, 98, 97, 114]) =
      .ok [102, 111, 111, 98, 97, 114] :=
  ⟨C1_roundtrip .rfc [102, 111, 111] (by decide),
   C1_roundtrip .crockford [102, 111, 111, 98, 97, 114] (by decide)⟩

/-- Counterexample to C2 as stated: `decode("MY!=====", standard)` does not
fail with `IllegalCharacter` at position 3; it fails with `InvalidPadding`,
because the 5 trailing `=` are counted first and 5 is not a legal pad
count, and the padding checks run before the character scan. -/
theorem C2_counterexample :
    decode .rfc (byteStr "MY!=====") = .error .InvalidPadding ∧
    decode .rfc (byteStr "MY!=====") ≠ .error (.IllegalCharacter 33 3) := by
  decide

/-- Amended C2: `decode("MY!=====", standard)` fails with `InvalidPadding`
(its trailing `=` run has length 5); on an input whose padding is legal,
such as `"MY!A===="` (4 trailing `=`), decode fails with `IllegalCharacter`
carrying the byte `'!'` (0x21) and its 1-based position 3. -/
theorem C2_amended :
    decode .rfc (byteStr "MY!=====") = .error .InvalidPadding ∧
    decode .rfc (byteStr "MY!A====") = .error (.IllegalCharacter 33 3) := by
  decide

/-- Claim C5: the RFC 4648 test vectors encode exactly as specified. -/
theorem C5_rfc_vectors :
    encode .rfc (byteStr "f") = byteStr "MY======" ∧
    encode .rfc (byteStr "fo") = byteStr "MZXQ====" ∧
    encode .rfc (byteStr "foo") = byteStr "MZXW6===" ∧
    encode .rfc (byteStr "foob") = byteStr "MZXW6YQ=" ∧
    encode .rfc (byteStr "fooba") = byteStr "MZXW6YTB" ∧
    encode .rfc (byteStr "foobar") = byteStr "MZXW6YTBOI======" := by
  decide

/-- Claim C7: the Crockford decode table maps digits to 0-9, is
case-insensitive on letters, maps I/i and L/l to 1 and O/o to 0, rejects
U/u, and maps the remaining letters to 10-31 in order skipping I, L, O, U;
`decode("O")` equals `decode("0")` and `decode("U")` is an
`IllegalCharacter` failure. -/
theorem C7_crockford_table :
    (∀ d, d < 10 → CROCKFORD_DECODE_TABLE.getD (48 + d) 255 = d) ∧
    (∀ j, j < 26 → CROCKFORD_DECODE_TABLE.getD (65 + j) 255 =
      CROCKFORD_DECODE_TABLE.getD (97 + j) 255) ∧
    CROCKFORD_DECODE_TABLE.getD 73 255 = 1 ∧
    CROCKFORD_DECODE_TABLE.getD 76 255 = 1 ∧
    CROCKFORD_DECODE_TABLE.getD 79 255 = 0 ∧
    31 < CROCKFORD_DECODE_TABLE.getD 85 255 ∧
    31 < CROCKFORD_DECODE_TABLE.getD 117 255 ∧
    ([65, 66, 67, 68, 69, 70, 71, 72, 74, 75, 77, 78, 80, 81, 82, 83, 84,
      86, 87, 88, 89, 90].map (fun c => CROCKFORD_DECODE_TABLE.getD c 255) =
      [10, 11, 12, 13, 14, 15, 16, 17, 18, 19, 20, 21, 22, 23, 24, 25, 26,
       27, 28, 29, 30, 31]) ∧
    decode .crockford (byteStr "O") = decode .crockford (byteStr "0") ∧
    decode .crockford (byteStr "U") = .error (.IllegalCharacter 85 1) ∧
    decode .crockford (byteStr "u") = .error (.IllegalCharacter 117 1) := by
  decide


/-- A scan over characters that are all valid (or skippable dashes in
Crockford mode) always succeeds. -/
theorem scanLoop_ok_of_valid (tbl : List Nat) (ck : Bool) :
    ∀ (s : List Nat) (i acc nbits : Nat) (out : List Nat),
      (∀ c ∈ s, tbl.getD c 255 ≤ 31 ∨ (ck = true ∧ c = 45)) →
      ∃ st, scanLoop tbl ck s i acc nbits out = .ok st := by
  intro s
  induction s with
  | nil =>
    intro i acc nbits out _
    exact ⟨_, rfl⟩
  | cons c rest ih =>
    intro i acc nbits out hv
    have hc := hv c (by simp)
    by_cases hsk : ck = true ∧ c = 45
    · simp only [scanLoop, if_pos hsk]
      exact ih _ _ _ _ (fun x hx => hv x (by simp [hx]))
    · have hle : tbl.getD c 255 ≤ 31 := by
        rcases hc with h | h
        · exact h
        · exact absurd h hsk
      simp only [scanLoop]
      rw [if_neg hsk]
      have h31 : ¬(31 < tbl.getD c 255) := by omega
      rw [if_neg h31]
      by_cases h40 : 40 ≤ nbits + 5
      · rw [if_pos h40]
        exact ih _ _ _ _ (fun x hx => hv x (by simp [hx]))
      · rw [if_neg h40]
        exact ih _ _ _ _ (fun x hx => hv x (by simp [hx]))

/-- An RFC-mode scan fails exactly at the first invalid character,
reporting that byte and its 1-based position. -/
theorem scanLoop_err_at (tbl : List Nat) :
    ∀ (s : List Nat) (j i acc nbits : Nat) (out : List Nat),
      j < s.length →
      (∀ t, t < j → tbl.getD (s.getD t 0) 255 ≤ 31) →
      31 < tbl.getD (s.getD j 0) 255 →
      scanLoop tbl false s i acc nbits out = .error (s.getD j 0, i + j + 1) := by
  intro s
  induction s with
  | nil =>
    intro j i acc nbits out hj
    simp at hj
  | cons c rest ih =>
    intro j i acc nbits out hj hpre hbad
    cases j with
    | zero =>
      simp only [List.getD_cons_zero] at hbad ⊢
      simp only [scanLoop]
      rw [if_neg (by simp : ¬((false : Bool) = true ∧ c = 45))]
      rw [if_pos hbad]
    | succ j =>
      have hc : tbl.getD c 255 ≤ 31 := by
        have := hpre 0 (by omega)
        simpa using this
      simp only [scanLoop]
      rw [if_neg (by simp : ¬((false : Bool) = true ∧ c = 45))]
      have h31 : ¬(31 < tbl.getD c 255) := by omega
      rw [if_neg h31]
      have hrec : ∀ acc2 nbits2 out2, scanLoop tbl false rest (i + 1) acc2 nbits2 out2 =
          .error ((c :: rest).getD (j + 1) 0, i + (j + 1) + 1) := by
        intro acc2 nbits2 out2
        rw [ih j (i + 1) acc2 nbits2 out2 (by simpa using hj)
          (fun t ht => by simpa using hpre (t + 1) (by omega))
          (by simpa using hbad)]
        simp only [List.getD_cons_succ, Except.error.injEq, Prod.mk.injEq]
        exact ⟨trivial, by omega⟩
      by_cases h40 : 40 ≤ nbits + 5
      · rw [if_pos h40, hrec]
      · rw [if_neg h40, hrec]

/-- Claim C3: for non-empty standard inputs of length a multiple of 8,
decode fails with `InvalidPadding` exactly when the trailing `=` run count
exceeds 6 or is outside {0, 1, 3, 4, 6}; the padding checks run before the
character scan, so this holds regardless of the other characters. -/
theorem C3_invalid_padding (s : List Nat) (hne : s ≠ []) (h8 : s.length % 8 = 0) :
    decode .rfc s = .error .InvalidPadding ↔
      (6 < padCount s ∨ ¬(padCount s = 0 ∨ padCount s = 1 ∨ padCount s = 3 ∨
        padCount s = 4 ∨ padCount s = 6)) := by
  unfold decode
  rw [if_neg hne, if_neg (show ¬(s.length % 8 ≠ 0) from by omega)]
  by_cases h6 : 6 < padCount s
  · rw [if_pos h6]
    simp [h6]
  · rw [if_neg h6]
    by_cases hset : padCount s ≠ 0 ∧ padCount s ≠ 1 ∧ padCount s ≠ 3 ∧
        padCount s ≠ 4 ∧ padCount s ≠ 6
    · rw [if_pos hset]
      constructor
      · intro _
        omega
      · intro _
        rfl
    · rw [if_neg hset]
      cases hsc : scanLoop RFC_DECODE_TABLE false (s.take (s.length - padCount s)) 0 0 0 [] with
      | ok st =>
        obtain ⟨a, n, o⟩ := st
        simp only [hsc]
        constructor
        · intro habs
          exact absurd habs (by simp)
        · intro habs
          omega
      | error e =>
        obtain ⟨c, p⟩ := e
        simp only [hsc]
        constructor
        · intro habs
          exact absurd habs (by simp)
        · intro habs
          omega

/-- Witness for C3: an 8-character input with 5 trailing pads is rejected
with `InvalidPadding`. -/
theorem C3_invalid_padding_witness :
    decode .rfc (byteStr "AAA=====") = .error .InvalidPadding :=
  (C3_invalid_padding (byteStr "AAA=====") (by decide) (by decide)).mpr (by decide)

/-- Claim C4: a non-empty standard input whose length is not a multiple of
8 is rejected with `InvalidLength` unconditionally (so the check precedes
the padding and character checks), while Crockford decoding never produces
`InvalidLength`. -/
theorem C4_invalid_length :
    (∀ s : List Nat, s ≠ [] → s.length % 8 ≠ 0 →
      decode .rfc s = .error .InvalidLength) ∧
    (∀ s : List Nat, decode .crockford s ≠ .error .InvalidLength) := by
  constructor
  · intro s hne h8
    unfold decode
    rw [if_neg hne, if_pos h8]
  · intro s
    by_cases hs : s = []
    · subst hs
      decide
    · unfold decode
      rw [if_neg hs]
      cases hsc : scanLoop CROCKFORD_DECODE_TABLE true s 0 0 0 [] with
      | ok st =>
        obtain ⟨a, n, o⟩ := st
        simp
      | error e =>
        obtain ⟨c, p⟩ := e
        simp

/-- Witness for C4: the 7-character input "MY=====" is `InvalidLength` for
the standard alphabet and not for Crockford. -/
theorem C4_invalid_length_witness :
    decode .rfc (byteStr "MY=====") = .error .InvalidLength ∧
    decode .crockford (byteStr "MY=====") ≠ .error .InvalidLength :=
  ⟨C4_invalid_length.1 (byteStr "MY=====") (by decide) (by decide),
   C4_invalid_length.2 (byteStr "MY=====")⟩

/-- Claim C9, part 1 packaged with its concrete illustration.  Part (a):
once the length and padding checks pass and every character of the
stripped input is valid, decode succeeds — the leftover sub-byte bits are
never inspected.  Part (b): scanning "MZ" leaves 10 held bits whose 2
leftover low bits are non-zero (value 1), and "MZ======" still decodes
successfully to the byte 0x66. -/
theorem C9_leftover_bits :
    (∀ s : List Nat, s ≠ [] → s.length % 8 = 0 →
      (padCount s = 0 ∨ padCount s = 1 ∨ padCount s = 3 ∨ padCount s = 4 ∨
        padCount s = 6) →
      (∀ c ∈ s.take (s.length - padCount s), RFC_DECODE_TABLE.getD c 255 ≤ 31) →
      ∃ out, decode .rfc s = .ok out) ∧
    (scanLoop RFC_DECODE_TABLE false (byteStr "MZ") 0 0 0 [] = .ok (409, 10, []) ∧
     409 % 2 ^ (10 - 8) ≠ 0 ∧
     decode .rfc (byteStr "MZ======") = .ok [102]) := by
  constructor
  · intro s hne h8 hset hval
    unfold decode
    rw [if_neg hne, if_neg (show ¬(s.length % 8 ≠ 0) from by omega)]
    rw [if_neg (show ¬(6 < padCount s) from by omega)]
    rw [if_neg (show ¬(padCount s ≠ 0 ∧ padCount s ≠ 1 ∧ padCount s ≠ 3 ∧
      padCount s ≠ 4 ∧ padCount s ≠ 6) from by omega)]
    obtain ⟨st, hst⟩ := scanLoop_ok_of_valid RFC_DECODE_TABLE false
      (s.take (s.length - padCount s)) 0 0 0 []
      (fun c hc => Or.inl (hval c hc))
    obtain ⟨a, n, o⟩ := st
    rw [hst]
    exact ⟨_, rfl⟩
  · decide

/-- Witness for C9: part (a) applied at the concrete input "MZ======". -/
theorem C9_leftover_bits_witness :
    ∃ out, decode .rfc (byteStr "MZ======") = .ok out :=
  C9_leftover_bits.1 (byteStr "MZ======") (by decide) (by decide) (by decide)
    (by decide)

/-- Claim C10: an `=` that is not part of the trailing padding run is not
stripped; if the padding checks pass and all characters before it are
valid, the scan reports it as an `IllegalCharacter` at its 1-based
position (the RFC table maps `=` to the invalid marker). -/
theorem C10_embedded_pad (s : List Nat) (i : Nat) (hne : s ≠ [])
    (h8 : s.length % 8 = 0)
    (hset : padCount s = 0 ∨ padCount s = 1 ∨ padCount s = 3 ∨
      padCount s = 4 ∨ padCount s = 6)
    (hi : i < s.length - padCount s)
    (heq : s.getD i 0 = 61)
    (hpre : ∀ j, j < i → RFC_DECODE_TABLE.getD (s.getD j 0) 255 ≤ 31) :
    decode .rfc s = .error (.IllegalCharacter 61 (i + 1)) := by
  have hstriplen : (s.take (s.length - padCount s)).length = s.length - padCount s := by
    rw [List.length_take]
    omega
  have hgd : ∀ t, t < s.length - padCount s →
      (s.take (s.length - padCount s)).getD t 0 = s.getD t 0 := by
    intro t ht
    simp only [List.getD_eq_getElem?_getD, List.getElem?_take_of_lt ht]
  unfold decode
  rw [if_neg hne, if_neg (show ¬(s.length % 8 ≠ 0) from by omega)]
  rw [if_neg (show ¬(6 < padCount s) from by omega)]
  rw [if_neg (show ¬(padCount s ≠ 0 ∧ padCount s ≠ 1 ∧ padCount s ≠ 3 ∧
    padCount s ≠ 4 ∧ padCount s ≠ 6) from by omega)]
  rw [scanLoop_err_at RFC_DECODE_TABLE (s.take (s.length - padCount s)) i 0 0 0 []
    (by omega) (fun t ht => by rw [hgd t (by omega)]; exact hpre t ht)
    (by rw [hgd i hi, heq]; decide)]
  rw [hgd i hi, heq]
  simp

/-- Witness for C10: in "A=AAAAAA" the `=` at position 2 is inside the
body (pad count 0), and decode reports `IllegalCharacter` for byte 61 at
position 2. -/
theorem C10_embedded_pad_witness :
    decode .rfc (byteStr "A=AAAAAA") = .error (.IllegalCharacter 61 2) :=
  C10_embedded_pad (byteStr "A=AAAAAA") 1 (by decide) (by decide) (by decide)
    (by decide) (by decide) (by decide)

/-- The Crockford encoder output is exactly the raw symbol stream (never
padded). -/
theorem encode_crockford_eq (bs : List Nat) :
    encode .crockford bs = encodeRaw CROCKFORD_ALPHABET bs := by
  by_cases hbs : bs = []
  · subst hbs
    rfl
  · unfold encode
    rw [if_neg hbs]
    simp

/-- The RFC encoder output is the raw symbol stream followed by
`(8 - k % 8) % 8` pad characters, `k` the raw symbol count. -/
theorem encode_rfc_eq (bs : List Nat) :
    encode .rfc bs = encodeRaw RFC_ALPHABET bs ++
      List.replicate ((8 - (encodeRaw RFC_ALPHABET bs).length % 8) % 8) 61 := by
  by_cases hbs : bs = []
  · subst hbs
    rfl
  · unfold encode
    rw [if_neg hbs]
    by_cases h8 : (encodeRaw RFC_ALPHABET bs).length % 8 = 0
    · simp [h8]
    · simp only [h8]
      simp [h8, Nat.mod_eq_of_lt
        (show 8 - (encodeRaw RFC_ALPHABET bs).length % 8 < 8 from by omega)]

/-- Each of the 32 RFC alphabet entries is a member of the alphabet. -/
theorem rfc_alpha_mem : ∀ v, v < 32 → RFC_ALPHABET.getD v 0 ∈ RFC_ALPHABET := by
  decide

/-- Each of the 32 Crockford alphabet entries is a member of the alphabet. -/
theorem ck_alpha_mem :
    ∀ v, v < 32 → CROCKFORD_ALPHABET.getD v 0 ∈ CROCKFORD_ALPHABET := by
  decide

/-- Claim C6: encoding is total by construction (`encode` is a total Lean
function); the Crockford output is exactly `ceil(8 * len / 5)` symbols, all
drawn from the Crockford alphabet with no `=`; the RFC output is the
`ceil(8 * len / 5)` raw alphabet symbols followed by exactly
`(8 - k % 8) % 8` pad characters `=` (zero when `k % 8 = 0`). -/
theorem C6_encode_shape (bs : List Nat) :
    (encode .crockford bs).length = (8 * bs.length + 4) / 5 ∧
    (∀ c ∈ encode .crockford bs, c ∈ CROCKFORD_ALPHABET) ∧
    61 ∉ encode .crockford bs ∧
    encode .rfc bs = encodeRaw RFC_ALPHABET bs ++
      List.replicate ((8 - (8 * bs.length + 4) / 5 % 8) % 8) 61 ∧
    (encodeRaw RFC_ALPHABET bs).length = (8 * bs.length + 4) / 5 ∧
    (∀ c ∈ encodeRaw RFC_ALPHABET bs, c ∈ RFC_ALPHABET) := by
  have hckl := encodeRaw_length CROCKFORD_ALPHABET bs.length bs (Nat.le_refl _)
  have hrfl := encodeRaw_length RFC_ALPHABET bs.length bs (Nat.le_refl _)
  refine ⟨?_, ?_, ?_, ?_, hrfl, ?_⟩
  · rw [encode_crockford_eq, hckl]
  · intro c hc
    rw [encode_crockford_eq] at hc
    obtain ⟨v, hv, hcv⟩ := encodeRaw_mem CROCKFORD_ALPHABET bs.length bs
      (Nat.le_refl _) c hc
    rw [hcv]
    exact ck_alpha_mem v hv
  · intro hc
    rw [encode_crockford_eq] at hc
    obtain ⟨v, hv, hcv⟩ := encodeRaw_mem CROCKFORD_ALPHABET bs.length bs
      (Nat.le_refl _) 61 hc
    exact (ck_alpha_ne61_45 v hv).1 hcv.symm
  · rw [encode_rfc_eq, hrfl]
  · intro c hc
    obtain ⟨v, hv, hcv⟩ := encodeRaw_mem RFC_ALPHABET bs.length bs
      (Nat.le_refl _) c hc
    rw [hcv]
    exact rfc_alpha_mem v hv

/-- Witness for C6 at the concrete input "foobar". -/
theorem C6_encode_shape_witness :
    (encode .crockford [102, 111, 111, 98, 97, 114]).length = 10 ∧
    61 ∉ encode .crockford [102, 111, 111, 98, 97, 114] := by
  have h := C6_encode_shape [102, 111, 111, 98, 97, 114]
  exact ⟨h.1.trans (by norm_num), h.2.2.1⟩

/-- Removing every dash from a Crockford-mode input does not change the
scan outcome: the accumulator states agree, and a failure occurs on the
same byte. -/
theorem scanLoop_filter_dash (tbl : List Nat) :
    ∀ (s : List Nat) (i j acc nbits : Nat) (out : List Nat),
      scanAgree (scanLoop tbl true s i acc nbits out)
        (scanLoop tbl true (s.filter (fun c => c != 45)) j acc nbits out) := by
  intro s
  induction s with
  | nil =>
    intro i j acc nbits out
    simp [scanLoop, scanAgree]
  | cons c rest ih =>
    intro i j acc nbits out
    by_cases hc : c = 45
    · subst hc
      rw [show (45 :: rest).filter (fun c => c != 45) =
          rest.filter (fun c => c != 45) from by simp [List.filter_cons]]
      simp only [scanLoop]
      rw [if_pos (show True ∧ True from ⟨trivial, trivial⟩)]
      exact ih (i + 1) j acc nbits out
    · rw [show (c :: rest).filter (fun c => c != 45) =
          c :: rest.filter (fun c => c != 45) from by simp [List.filter_cons, hc]]
      simp only [scanLoop]
      have hskip : ¬(True ∧ c = 45) := by simp [hc]
      rw [if_neg hskip, if_neg hskip]
      by_cases h31 : 31 < tbl.getD c 255
      · rw [if_pos h31, if_pos h31]
        simp [scanAgree]
      · rw [if_neg h31, if_neg h31]
        by_cases h40 : 40 ≤ nbits + 5
        · rw [if_pos h40, if_pos h40]
          exact ih (i + 1) (j + 1) _ _ _
        · rw [if_neg h40, if_neg h40]
          exact ih (i + 1) (j + 1) _ _ _

/-- Claim C8: Crockford decoding skips `-` (byte 45) wherever it appears,
so up to error payloads the decode of an input equals the decode of the
input with all dashes removed; `decode("91JP")` equals `decode("91-jp")`;
Crockford encoding never emits a dash; and for the standard alphabet `-`
is an invalid character (`IllegalCharacter` on scan). -/
theorem C8_dash :
    (∀ s : List Nat, (decode .crockford s).toOption =
      (decode .crockford (s.filter (fun c => c != 45))).toOption) ∧
    decode .crockford (byteStr "91JP") = decode .crockford (byteStr "91-jp") ∧
    (∀ bs : List Nat, 45 ∉ encode .crockford bs) ∧
    31 < RFC_DECODE_TABLE.getD 45 255 ∧
    decode .rfc (byteStr "-AAAAAAA") = .error (.IllegalCharacter 45 1) := by
  refine ⟨?_, by decide, ?_, by decide, by decide⟩
  · intro s
    have hag := scanLoop_filter_dash CROCKFORD_DECODE_TABLE s 0 0 0 0 []
    by_cases hs : s = []
    · subst hs
      rfl
    · by_cases hf : s.filter (fun c => c != 45) = []
      · rw [hf] at hag
        cases hsc : scanLoop CROCKFORD_DECODE_TABLE true s 0 0 0 [] with
        | ok st =>
          rw [hsc] at hag
          have hst : st = (0, 0, []) := hag
          subst hst
          unfold decode
          rw [if_neg hs, hsc, if_pos hf]
          rfl
        | error e =>
          rw [hsc] at hag
          exact absurd hag (by simp [scanLoop, scanAgree])
      · unfold decode
        rw [if_neg hs, if_neg hf]
        cases hsc : scanLoop CROCKFORD_DECODE_TABLE true s 0 0 0 [] with
        | ok st =>
          cases hsc2 : scanLoop CROCKFORD_DECODE_TABLE true
              (s.filter (fun c => c != 45)) 0 0 0 [] with
          | ok st2 =>
            rw [hsc, hsc2] at hag
            have hst : st = st2 := hag
            subst hst
            obtain ⟨a, n, o⟩ := st
            rfl
          | error e2 =>
            rw [hsc, hsc2] at hag
            exact absurd hag (by simp [scanAgree])
        | error e =>
          cases hsc2 : scanLoop CROCKFORD_DECODE_TABLE true
              (s.filter (fun c => c != 45)) 0 0 0 [] with
          | ok st2 =>
            rw [hsc, hsc2] at hag
            exact absurd hag (by simp [scanAgree])
          | error e2 =>
            obtain ⟨c, p⟩ := e
            obtain ⟨c2, p2⟩ := e2
            rfl
  · intro bs hmem
    rw [encode_crockford_eq] at hmem
    obtain ⟨v, hv, hcv⟩ := encodeRaw_mem CROCKFORD_ALPHABET bs.length bs
      (Nat.le_refl _) 45 hmem
    exact (ck_alpha_ne61_45 v hv).2 hcv.symm

end Base32
